import Mathlib

set_option maxHeartbeats 1000000
set_option maxRecDepth 4000

namespace SerialMonitor

/-! Shallow embedding of src/serialmonitor.py (the format/escape execution
engine): `SerialWrapper` (growable byte buffer over a byte source),
`SerialStream` (per-template cursor), the escape-handler registry, and
`Session.read` (one decoding round with reconciliation).

A value returned by one call to `serial.Serial.read()` is a Python `bytes`
object holding at most one byte; it is empty when the read times out.  We
model it as a `List Nat` (`PyBytes`).  The byte source is modelled as the
finite list of values the device will deliver, in order; an exhausted
source models a read that blocks forever, and every operation that would
block forever (or raise) returns `none`. -/

/-- A Python bytes object as returned by one `ser.read()` call. -/
abbrev PyBytes := List Nat

/-- Python list indexing `l[i]`, including negative-index support;
`none` models an `IndexError`. -/
def pyIndex (l : List PyBytes) (i : Int) : Option PyBytes :=
  let j := if i < 0 then i + l.length else i
  if j < 0 then none else l[j.toNat]?

/-- Python slicing `l[i:]` (used by `SerialWrapper.pop`). -/
def pySliceFrom (l : List PyBytes) (i : Int) : List PyBytes :=
  if 0 ≤ i then l.drop i.toNat else l.drop ((l.length : Int) + i).toNat

/-- `SerialWrapper`: the growable buffer `buf` of reads pulled so far, and
the pending reads `src` the device will deliver next. -/
structure SerialWrapper where
  buf : List PyBytes
  src : List PyBytes
deriving DecidableEq, Repr

/-- The `while index >= len(self.buf): self.push()` loop of
`SerialWrapper.peek`, followed by `self.buf[index]`.  Each `push` moves one
pending read from the source to the buffer tail. -/
def peekGo (src : List PyBytes) (buf : List PyBytes) (index : Int) :
    Option (PyBytes × SerialWrapper) :=
  if index < (buf.length : Int) then
    (pyIndex buf index).map (fun b => (b, ⟨buf, src⟩))
  else
    match src with
    | [] => none
    | b :: rest => peekGo rest (buf ++ [b]) index

/-- `SerialWrapper.peek(index)`. -/
def SerialWrapper.peek (sw : SerialWrapper) (index : Int) :
    Option (PyBytes × SerialWrapper) :=
  peekGo sw.src sw.buf index

/-- `SerialWrapper.pop(count)`: `self.buf = self.buf[count:]`. -/
def SerialWrapper.pop (sw : SerialWrapper) (count : Int) : SerialWrapper :=
  ⟨pySliceFrom sw.buf count, sw.src⟩

/-- `SerialStream`: a cursor, owning the mutable offset `ptr`. -/
structure SerialStream where
  ptr : Int
deriving DecidableEq, Repr

/-- `SerialStream.read(sw)`: peek at `ptr`, then increment `ptr`. -/
def SerialStream.read (s : SerialStream) (sw : SerialWrapper) :
    Option (PyBytes × SerialStream × SerialWrapper) :=
  (sw.peek s.ptr).map (fun p => (p.1, ⟨s.ptr + 1⟩, p.2))

/-- `SerialStream.trim(index)`: `self.ptr -= index`. -/
def SerialStream.trim (s : SerialStream) (index : Int) : SerialStream :=
  ⟨s.ptr - index⟩

/-- The `--byteorder` configuration value. -/
inductive ByteOrder
  | big
  | little
deriving DecidableEq, Repr

/-- The engine-wide configuration of a `Session`: escape char, byte order,
format templates (as lists of characters) and the buffering-policy flag. -/
structure Config where
  escape : Char
  byteorder : ByteOrder
  formats : List (List Char)
  buffer : Bool

/-- `Session.byteToInt`: `int.from_bytes(byte, byteorder)`. -/
def byteToInt (bo : ByteOrder) (b : PyBytes) : Nat :=
  match bo with
  | .big => b.foldl (fun acc d => acc * 256 + d) 0
  | .little => b.reverse.foldl (fun acc d => acc * 256 + d) 0

/-- Python `chr` (total here; all values arising from real bytes are valid). -/
def chrNat (n : Nat) : Char := Char.ofNat n

/-- Python `str(n)` for a non-negative integer. -/
def natStr (n : Nat) : List Char := Nat.toDigits 10 n

/-- Python `bin(n)` for non-negative `n`: the prefix characters `0` and `b`
followed by the binary digits. -/
def pyBin (n : Nat) : List Char := '0' :: 'b' :: Nat.toDigits 2 n

/-- Python `hex(n)` for non-negative `n`. -/
def pyHex (n : Nat) : List Char := '0' :: 'x' :: Nat.toDigits 16 n

/-- Python `s.lstrip(strip)`: removes leading characters belonging to the
character set `strip` (not the literal substring). -/
def pyLstrip (strip : List Char) : List Char → List Char
  | [] => []
  | c :: rest => if c ∈ strip then pyLstrip strip rest else c :: rest

/-- Python `s.zfill(width)` for a digit string (no sign handling needed). -/
def pyZfill (width : Nat) (s : List Char) : List Char :=
  List.replicate (width - s.length) '0' ++ s

/-- `Session.intToBin`: `bin(integer).lstrip("0b").zfill(8)`. -/
def intToBin (n : Nat) : List Char := pyZfill 8 (pyLstrip ['0', 'b'] (pyBin n))

/-- `Session.intToHex`: `hex(integer).lstrip("0x").zfill(2)`. -/
def intToHex (n : Nat) : List Char := pyZfill 2 (pyLstrip ['0', 'x'] (pyHex n))

/-- The escape-handler registry entries generated by
`Session.genEscapeHandlers`, one constructor per handler class. -/
inductive EH
  | b
  | h
  | i
  | d
  | a
  | x
  | e
  | n
  | t
deriving DecidableEq, Repr

/-- The registered character of each handler (`EscapeHandler.getChar`). -/
def EH.char : EH → Char
  | .b => 'b'
  | .h => 'h'
  | .i => 'i'
  | .d => 'd'
  | .a => 'a'
  | .x => 'x'
  | .e => 'e'
  | .n => 'n'
  | .t => 't'

/-- `Session.escapeHandlers`, in registration order. -/
def escapeHandlers : List EH := [.b, .h, .i, .d, .a, .x, .e, .n, .t]

/-- The lookup loop of `Session.processEscape`: the first handler whose
registered char equals the escape code. -/
def findHandler (c : Char) : List EH → Option EH
  | [] => none
  | hd :: rest => if c = hd.char then some hd else findHandler c rest

/-- The sentinel literal emitted for a malformed escape reference. -/
def badEsc : List Char := ['<', 'B', 'A', 'D', 'E', 'S', 'C', '>']

/-- The sentinel literal emitted by the self-reference guard of the
dynamic escape handler. -/
def recEsc : List Char := ['<', 'R', 'E', 'C', 'E', 'S', 'C', '>']

/-- The `stream.read(session.sw)` call shape shared by all byte-consuming
handlers: read one value from the cursor, then continue with it (a failed
read, i.e. a source that would block forever, propagates as `none`). -/
def readThen (st : SerialStream) (sw : SerialWrapper)
    (k : PyBytes → SerialStream → SerialWrapper →
      Option (List Char × SerialStream × SerialWrapper)) :
    Option (List Char × SerialStream × SerialWrapper) :=
  match st.read sw with
  | none => none
  | some (byte, st1, sw1) => k byte st1 sw1

/-- The `process` method of each handler class.  `recur` is the
re-entry into `Session.processEscape` used by the dynamic handler. -/
def runHandler (cfg : Config)
    (recur : Char → SerialStream → SerialWrapper →
      Option (List Char × SerialStream × SerialWrapper)) :
    EH → SerialStream → SerialWrapper →
    Option (List Char × SerialStream × SerialWrapper)
  | .b, st, sw =>
    readThen st sw (fun byte st1 sw1 =>
      some (intToBin (byteToInt cfg.byteorder byte), st1, sw1))
  | .h, st, sw =>
    readThen st sw (fun byte st1 sw1 =>
      some (intToHex (byteToInt cfg.byteorder byte), st1, sw1))
  | .i, st, sw =>
    readThen st sw (fun byte st1 sw1 =>
      some (natStr (byteToInt cfg.byteorder byte), st1, sw1))
  | .d, st, sw =>
    readThen st sw (fun b1 st1 sw1 =>
      readThen st1 sw1 (fun b2 st2 sw2 =>
        some (natStr ((byteToInt cfg.byteorder b1) <<< 8 |||
          (byteToInt cfg.byteorder b2)), st2, sw2)))
  | .a, st, sw =>
    readThen st sw (fun byte st1 sw1 =>
      some ([chrNat (byteToInt cfg.byteorder byte)], st1, sw1))
  | .x, st, sw =>
    readThen st sw (fun _ st1 sw1 => some ([], st1, sw1))
  | .e, st, sw =>
    readThen st sw (fun byte st1 sw1 =>
      if chrNat (byteToInt cfg.byteorder byte) = 'e' then
        some (recEsc, st1, sw1)
      else
        recur (chrNat (byteToInt cfg.byteorder byte)) st1 sw1)
  | .n, st, sw => some (['\n'], st, sw)
  | .t, st, sw => some (['\t'], st, sw)

/-- `Session.processEscape`: registry lookup, then the matched handler's
`process`; no match emits `<BADESC>` without touching the state.  The
dynamic handler (`e`) re-enters `processEscape`; the `fuel` argument only
bounds that re-entry depth (the Python code recurses at most once,
because a dynamically selected `e` is caught by the self-reference guard,
so any `fuel ≥ 2` is enough). -/
def processEscape (cfg : Config) :
    Nat → Char → SerialStream → SerialWrapper →
    Option (List Char × SerialStream × SerialWrapper)
  | 0, _, _, _ => none
  | fuel + 1, c, st, sw =>
    match findHandler c escapeHandlers with
    | none => some (badEsc, st, sw)
    | some eh => runHandler cfg (processEscape cfg fuel) eh st sw

/-- Python `f.split(sep)` for a one-character separator. -/
def splitOnChar (sep : Char) : List Char → List (List Char)
  | [] => [[]]
  | c :: rest =>
    let r := splitOnChar sep rest
    if c = sep then [] :: r
    else
      match r with
      | [] => [[c]]
      | g :: gs => (c :: g) :: gs

/-- The body of the inner `for t in toks` loop of `Session.read` for one
token: a non-empty token dispatches on its first character and appends the
trailing literal; an empty token (a trailing escape character, or two
adjacent escape characters) dispatches on the escape character itself. -/
def processTok (cfg : Config) (fuel : Nat) (t : List Char)
    (st : SerialStream) (sw : SerialWrapper) :
    Option (List Char × SerialStream × SerialWrapper) :=
  match t with
  | [] => processEscape cfg fuel cfg.escape st sw
  | c :: tl =>
    match processEscape cfg fuel c st sw with
    | none => none
    | some (o, st1, sw1) => some (o ++ tl, st1, sw1)

/-- The inner `for t in toks` loop of `Session.read`. -/
def processToks (cfg : Config) (fuel : Nat) :
    List (List Char) → SerialStream → SerialWrapper →
    Option (List Char × SerialStream × SerialWrapper)
  | [], st, sw => some ([], st, sw)
  | t :: rest, st, sw =>
    match processTok cfg fuel t st sw with
    | none => none
    | some (o, st1, sw1) =>
      match processToks cfg fuel rest st1 sw1 with
      | none => none
      | some (os, st2, sw2) => some (o ++ os, st2, sw2)

/-- Processing of one format template by `Session.read`: split on the
escape character, emit the literal prefix, then run the escape-marked
segments against this template's cursor. -/
def processTemplate (cfg : Config) (fuel : Nat) (f : List Char)
    (st : SerialStream) (sw : SerialWrapper) :
    Option (List Char × SerialStream × SerialWrapper) :=
  match splitOnChar cfg.escape f with
  | [] => some ([], st, sw)
  | t0 :: toks =>
    match processToks cfg fuel toks st sw with
    | none => none
    | some (o, st1, sw1) => some (t0 ++ o, st1, sw1)

/-- The `for f, s in zip(self.formats, self.streams)` loop of
`Session.read`: every template processed once, each against its own
cursor, all sharing the one buffer. -/
def roundTemplates (cfg : Config) (fuel : Nat) :
    List (List Char) → List SerialStream → SerialWrapper →
    Option (List Char × List SerialStream × SerialWrapper)
  | [], ss, sw => some ([], ss, sw)
  | _ :: _, [], sw => some ([], [], sw)
  | f :: fs, s :: ss, sw =>
    match processTemplate cfg fuel f s sw with
    | none => none
    | some (o, s1, sw1) =>
      match roundTemplates cfg fuel fs ss sw1 with
      | none => none
      | some (os, ss1, sw2) => some (o ++ os, s1 :: ss1, sw2)

/-- The `minInd` fold of `Session.read` (buffered mode). -/
def minIndex (streams : List SerialStream) : Option Int :=
  streams.foldl
    (fun acc s =>
      match acc with
      | none => some s.ptr
      | some m => if m > s.ptr then some s.ptr else some m)
    none

/-- The `maxInd` fold of `Session.read` (synchronized mode). -/
def maxIndex (streams : List SerialStream) : Option Int :=
  streams.foldl
    (fun acc s =>
      match acc with
      | none => some s.ptr
      | some m => if m < s.ptr then some s.ptr else some m)
    none

/-- The reconciliation step at the end of `Session.read`.  With no
templates the Python code would call `pop(None)` and raise; that is
modelled as `none`. -/
def reconcile : Bool → List SerialStream → SerialWrapper →
    Option (List SerialStream × SerialWrapper)
  | true, streams, sw =>
    match minIndex streams with
    | none => none
    | some m => some (streams.map (fun s => s.trim m), sw.pop m)
  | false, streams, sw =>
    match maxIndex streams with
    | none => none
    | some m => some (streams.map (fun s => s.trim s.ptr), sw.pop m)

/-- `Session.read`: one full decoding round (all templates, then
reconciliation), returning the round's text output and the new state. -/
def sessionRead (cfg : Config) (fuel : Nat) (streams : List SerialStream)
    (sw : SerialWrapper) :
    Option (List Char × List SerialStream × SerialWrapper) :=
  match roundTemplates cfg fuel cfg.formats streams sw with
  | none => none
  | some (out, streams1, sw1) =>
    match reconcile cfg.buffer streams1 sw1 with
    | none => none
    | some (streams2, sw2) => some (out, streams2, sw2)

/-- `n` successive decoding rounds (the main loop), keeping only the state. -/
def iterRead (cfg : Config) (fuel : Nat) :
    Nat → List SerialStream → SerialWrapper →
    Option (List SerialStream × SerialWrapper)
  | 0, ss, sw => some (ss, sw)
  | r + 1, ss, sw =>
    match sessionRead cfg fuel ss sw with
    | none => none
    | some (_, ss1, sw1) => iterRead cfg fuel r ss1 sw1

/-- The cursors created by `Session.__init__`: one fresh cursor (offset 0)
per format template. -/
def mkStreams (formats : List (List Char)) : List SerialStream :=
  formats.map (fun _ => ⟨0⟩)

/-- The buffered-mode example scenario of the spec: template A consumes 1
value per round, template B consumes 3. -/
def cfgScenario : Config :=
  ⟨'%', .big, [['%', 'a'], ['%', 'a', '%', 'a', '%', 'a']], true⟩

/-- A buffered-mode session whose second template consumes a
data-dependent number of values per round (via the dynamic escape). -/
def cfgCex : Config :=
  ⟨'%', .big, [['%', 'x', '%', 'x'], ['%', 'e']], true⟩

/-! ### Basic helper lemmas -/

/-- A successful Python list access returns a member of the list. -/
theorem pyIndex_mem {l : List PyBytes} {i : Int} {x : PyBytes}
    (h : pyIndex l i = some x) : x ∈ l := by
  unfold pyIndex at h
  by_cases hjn : (if i < 0 then i + l.length else i) < 0
  · simp only [hjn, if_true] at h
    exact Option.noConfusion h
  · simp only [hjn, if_false] at h
    exact List.getElem?_mem h

/-- Inversion of a successful `peekGo` run: the combined buffer+source
contents are unchanged (bytes only move from the source to the buffer
tail), the buffer only grows, the returned value is one of the pending
values, and a non-negative index ends up inside the new buffer. -/
theorem peekGo_inv (src : List PyBytes) : ∀ (buf : List PyBytes) (i : Int)
    (b : PyBytes) (sw' : SerialWrapper), peekGo src buf i = some (b, sw') →
    sw'.buf ++ sw'.src = buf ++ src ∧ buf.length ≤ sw'.buf.length ∧
    b ∈ buf ++ src ∧ (0 ≤ i → i < (sw'.buf.length : Int)) := by
  induction src with
  | nil =>
    intro buf i b sw' h
    unfold peekGo at h
    by_cases hlt : i < (buf.length : Int)
    · rw [if_pos hlt] at h
      rcases Option.map_eq_some'.mp h with ⟨x, hx, hmap⟩
      injection hmap with hb hsw
      subst hb; subst hsw
      exact ⟨rfl, le_refl _, List.mem_append_left _ (pyIndex_mem hx),
        fun _ => hlt⟩
    · rw [if_neg hlt] at h
      exact Option.noConfusion h
  | cons hd rest ih =>
    intro buf i b sw' h
    unfold peekGo at h
    by_cases hlt : i < (buf.length : Int)
    · rw [if_pos hlt] at h
      rcases Option.map_eq_some'.mp h with ⟨x, hx, hmap⟩
      injection hmap with hb hsw
      subst hb; subst hsw
      exact ⟨rfl, le_refl _, List.mem_append_left _ (pyIndex_mem hx),
        fun _ => hlt⟩
    · rw [if_neg hlt] at h
      have h' : peekGo rest (buf ++ [hd]) i = some (b, sw') := h
      obtain ⟨h1, h2, h3, h4⟩ := ih (buf ++ [hd]) i b sw' h'
      refine ⟨by simpa using h1, ?_, by simpa using h3, h4⟩
      calc buf.length ≤ (buf ++ [hd]).length := by simp
        _ ≤ sw'.buf.length := h2

/-- `peekGo_inv` restated for `SerialWrapper.peek`. -/
theorem peek_inv {sw : SerialWrapper} {i : Int} {b : PyBytes}
    {sw' : SerialWrapper} (h : sw.peek i = some (b, sw')) :
    sw'.buf ++ sw'.src = sw.buf ++ sw.src ∧
    sw.buf.length ≤ sw'.buf.length ∧
    b ∈ sw.buf ++ sw.src ∧
    (0 ≤ i → i < (sw'.buf.length : Int)) :=
  peekGo_inv sw.src sw.buf i b sw' h

/-- Inversion of a successful cursor read. -/
theorem read_inv {st st1 : SerialStream} {sw sw1 : SerialWrapper}
    {byte : PyBytes} (h : st.read sw = some (byte, st1, sw1)) :
    st1.ptr = st.ptr + 1 ∧
    sw1.buf ++ sw1.src = sw.buf ++ sw.src ∧
    sw.buf.length ≤ sw1.buf.length ∧
    byte ∈ sw.buf ++ sw.src ∧
    (0 ≤ st.ptr → st1.ptr ≤ (sw1.buf.length : Int)) := by
  unfold SerialStream.read at h
  rcases Option.map_eq_some'.mp h with ⟨⟨x, swx⟩, hx, hmap⟩
  injection hmap with hb hrest
  injection hrest with hst hsw
  subst hb; subst hst; subst hsw
  obtain ⟨h1, h2, h3, h4⟩ := peek_inv hx
  exact ⟨rfl, h1, h2, h3, fun h0 => by have := h4 h0; simp only; omega⟩

/-- The state-evolution invariant of every byte-consuming step: combined
buffer+source contents preserved, buffer monotone, cursor monotone, and a
cursor that started non-negative either addresses a position inside the
new buffer or was left untouched. -/
def StepInv (st st' : SerialStream) (sw sw' : SerialWrapper) : Prop :=
  sw'.buf ++ sw'.src = sw.buf ++ sw.src ∧
  sw.buf.length ≤ sw'.buf.length ∧
  st.ptr ≤ st'.ptr ∧
  (0 ≤ st.ptr → (st'.ptr ≤ (sw'.buf.length : Int) ∨ st' = st))

theorem StepInv.refl (st : SerialStream) (sw : SerialWrapper) :
    StepInv st st sw sw :=
  ⟨rfl, le_refl _, le_refl _, fun _ => Or.inr rfl⟩

theorem StepInv.trans {st st1 st' : SerialStream} {sw sw1 sw' : SerialWrapper}
    (a : StepInv st st1 sw sw1) (b : StepInv st1 st' sw1 sw') :
    StepInv st st' sw sw' := by
  obtain ⟨a1, a2, a3, a4⟩ := a
  obtain ⟨b1, b2, b3, b4⟩ := b
  refine ⟨a1 ▸ b1, le_trans a2 b2, le_trans a3 b3, fun h0 => ?_⟩
  have h1 : (0 : Int) ≤ st1.ptr := le_trans h0 a3
  rcases b4 h1 with hb | hb
  · exact Or.inl hb
  · subst hb
    rcases a4 h0 with ha | ha
    · exact Or.inl (le_trans ha (by exact_mod_cast Int.ofNat_le.mpr b2))
    · exact Or.inr ha

/-- A single successful read satisfies the step invariant. -/
theorem read_stepInv {st st1 : SerialStream} {sw sw1 : SerialWrapper}
    {byte : PyBytes} (hr : st.read sw = some (byte, st1, sw1)) :
    StepInv st st1 sw sw1 := by
  obtain ⟨h1, h2, h3, _, h5⟩ := read_inv hr
  exact ⟨h2, h3, by omega, fun h0 => Or.inl (h5 h0)⟩

/-- Step-invariant inversion through the read-then-continue shape. -/
theorem readThen_inv {st st' : SerialStream} {sw sw' : SerialWrapper}
    {out : List Char}
    {k : PyBytes → SerialStream → SerialWrapper →
      Option (List Char × SerialStream × SerialWrapper)}
    (h : readThen st sw k = some (out, st', sw'))
    (hk : ∀ byte st1 sw1, st.read sw = some (byte, st1, sw1) →
      k byte st1 sw1 = some (out, st', sw') → StepInv st1 st' sw1 sw') :
    StepInv st st' sw sw' := by
  unfold readThen at h
  cases hr : st.read sw with
  | none => rw [hr] at h; exact Option.noConfusion h
  | some v =>
    obtain ⟨byte, st1, sw1⟩ := v
    rw [hr] at h
    exact (read_stepInv hr).trans (hk byte st1 sw1 hr h)

/-- Inversion of a `some` pair result. -/
theorem some_pair_inv {α β : Type} {a c : α} {b d : β}
    (h : (some (a, b) : Option (α × β)) = some (c, d)) : a = c ∧ b = d := by
  injection h with h1
  injection h1 with h2 h3
  exact ⟨h2, h3⟩

/-- Inversion of the plain `some`-result shape. -/
theorem some_triple_inv {α β γ : Type} {o out : α} {st1 st' : β}
    {sw1 sw' : γ}
    (h : (some (o, st1, sw1) : Option (α × β × γ)) = some (out, st', sw')) :
    o = out ∧ st1 = st' ∧ sw1 = sw' := by
  injection h with h1
  injection h1 with h2 h3
  injection h3 with h4 h5
  exact ⟨h2, h4, h5⟩

/-- Every handler invocation satisfies the step invariant, provided the
re-entry callback does. -/
theorem runHandler_inv (cfg : Config)
    (recur : Char → SerialStream → SerialWrapper →
      Option (List Char × SerialStream × SerialWrapper))
    (hrec : ∀ c st sw out st' sw', recur c st sw = some (out, st', sw') →
      StepInv st st' sw sw') :
    ∀ (eh : EH) (st : SerialStream) (sw : SerialWrapper) (out : List Char)
      (st' : SerialStream) (sw' : SerialWrapper),
      runHandler cfg recur eh st sw = some (out, st', sw') →
      StepInv st st' sw sw' := by
  intro eh st sw out st' sw' h
  cases eh
  case b =>
    refine readThen_inv h (fun byte st1 sw1 hr hk => ?_)
    obtain ⟨-, h2, h3⟩ := some_triple_inv hk
    subst h2; subst h3
    exact StepInv.refl _ _
  case h =>
    refine readThen_inv h (fun byte st1 sw1 hr hk => ?_)
    obtain ⟨-, h2, h3⟩ := some_triple_inv hk
    subst h2; subst h3
    exact StepInv.refl _ _
  case i =>
    refine readThen_inv h (fun byte st1 sw1 hr hk => ?_)
    obtain ⟨-, h2, h3⟩ := some_triple_inv hk
    subst h2; subst h3
    exact StepInv.refl _ _
  case d =>
    refine readThen_inv h (fun b1 st1 sw1 hr1 hk1 => ?_)
    refine readThen_inv hk1 (fun b2 st2 sw2 hr2 hk2 => ?_)
    obtain ⟨-, h2, h3⟩ := some_triple_inv hk2
    subst h2; subst h3
    exact StepInv.refl _ _
  case a =>
    refine readThen_inv h (fun byte st1 sw1 hr hk => ?_)
    obtain ⟨-, h2, h3⟩ := some_triple_inv hk
    subst h2; subst h3
    exact StepInv.refl _ _
  case x =>
    refine readThen_inv h (fun byte st1 sw1 hr hk => ?_)
    obtain ⟨-, h2, h3⟩ := some_triple_inv hk
    subst h2; subst h3
    exact StepInv.refl _ _
  case e =>
    refine readThen_inv h (fun byte st1 sw1 hr hk => ?_)
    by_cases hc : chrNat (byteToInt cfg.byteorder byte) = 'e'
    · rw [if_pos hc] at hk
      obtain ⟨-, h2, h3⟩ := some_triple_inv hk
      subst h2; subst h3
      exact StepInv.refl _ _
    · rw [if_neg hc] at hk
      exact hrec _ _ _ _ _ _ hk
  case n =>
    obtain ⟨-, h2, h3⟩ := some_triple_inv h
    subst h2; subst h3
    exact StepInv.refl _ _
  case t =>
    obtain ⟨-, h2, h3⟩ := some_triple_inv h
    subst h2; subst h3
    exact StepInv.refl _ _

/-- Every escape-operation invocation satisfies the step invariant. -/
theorem processEscape_inv (cfg : Config) :
    ∀ (fuel : Nat) (c : Char) (st : SerialStream) (sw : SerialWrapper)
      (out : List Char) (st' : SerialStream) (sw' : SerialWrapper),
      processEscape cfg fuel c st sw = some (out, st', sw') →
      StepInv st st' sw sw' := by
  intro fuel
  induction fuel with
  | zero =>
    intro c st sw out st' sw' h
    exact Option.noConfusion h
  | succ fuel ih =>
    intro c st sw out st' sw' h
    rw [processEscape] at h
    cases hf : findHandler c escapeHandlers with
    | none =>
      rw [hf] at h
      obtain ⟨-, h2, h3⟩ := some_triple_inv h
      subst h2; subst h3
      exact StepInv.refl _ _
    | some eh =>
      rw [hf] at h
      exact runHandler_inv cfg (processEscape cfg fuel) ih eh st sw out st' sw' h

/-- Every token-processing step satisfies the step invariant. -/
theorem processTok_inv (cfg : Config) (fuel : Nat) (t : List Char)
    {st st' : SerialStream} {sw sw' : SerialWrapper} {out : List Char}
    (h : processTok cfg fuel t st sw = some (out, st', sw')) :
    StepInv st st' sw sw' := by
  cases t with
  | nil =>
    simp only [processTok] at h
    exact processEscape_inv cfg fuel _ _ _ _ _ _ h
  | cons c tl =>
    simp only [processTok] at h
    cases hp : processEscape cfg fuel c st sw with
    | none => simp only [hp] at h; exact Option.noConfusion h
    | some v =>
      obtain ⟨o, st1, sw1⟩ := v
      simp only [hp] at h
      obtain ⟨-, h2, h3⟩ := some_triple_inv h
      subst h2; subst h3
      exact processEscape_inv cfg fuel _ _ _ _ _ _ hp

/-- Every token-list run satisfies the step invariant. -/
theorem processToks_inv (cfg : Config) (fuel : Nat) :
    ∀ (toks : List (List Char)) {st st' : SerialStream}
      {sw sw' : SerialWrapper} {out : List Char},
      processToks cfg fuel toks st sw = some (out, st', sw') →
      StepInv st st' sw sw' := by
  intro toks
  induction toks with
  | nil =>
    intro st st' sw sw' out h
    obtain ⟨-, h2, h3⟩ := some_triple_inv h
    subst h2; subst h3
    exact StepInv.refl _ _
  | cons t rest ih =>
    intro st st' sw sw' out h
    simp only [processToks] at h
    cases hp : processTok cfg fuel t st sw with
    | none => simp only [hp] at h; exact Option.noConfusion h
    | some v =>
      obtain ⟨o, st1, sw1⟩ := v
      simp only [hp] at h
      cases hq : processToks cfg fuel rest st1 sw1 with
      | none => simp only [hq] at h; exact Option.noConfusion h
      | some w =>
        obtain ⟨os, st2, sw2⟩ := w
        simp only [hq] at h
        obtain ⟨-, h2, h3⟩ := some_triple_inv h
        subst h2; subst h3
        exact (processTok_inv cfg fuel t hp).trans (ih hq)

/-- Every template run satisfies the step invariant. -/
theorem processTemplate_inv (cfg : Config) (fuel : Nat) (f : List Char)
    {st st' : SerialStream} {sw sw' : SerialWrapper} {out : List Char}
    (h : processTemplate cfg fuel f st sw = some (out, st', sw')) :
    StepInv st st' sw sw' := by
  unfold processTemplate at h
  cases hs : splitOnChar cfg.escape f with
  | nil =>
    simp only [hs] at h
    obtain ⟨-, h2, h3⟩ := some_triple_inv h
    subst h2; subst h3
    exact StepInv.refl _ _
  | cons t0 toks =>
    simp only [hs] at h
    cases hq : processToks cfg fuel toks st sw with
    | none => simp only [hq] at h; exact Option.noConfusion h
    | some w =>
      obtain ⟨o, st1, sw1⟩ := w
      simp only [hq] at h
      obtain ⟨-, h2, h3⟩ := some_triple_inv h
      subst h2; subst h3
      exact processToks_inv cfg fuel toks hq

/-- Global round invariant: processing all templates preserves the
combined buffer+source contents and only grows the buffer; and both
cursor-range invariants (inside the buffer; inside buffer+source) are
carried from the input cursors to the output cursors. -/
theorem roundTemplates_inv (cfg : Config) (fuel : Nat) :
    ∀ (fs : List (List Char)) (ss : List SerialStream) (sw : SerialWrapper)
      (out : List Char) (ss' : List SerialStream) (sw' : SerialWrapper),
      roundTemplates cfg fuel fs ss sw = some (out, ss', sw') →
      sw'.buf ++ sw'.src = sw.buf ++ sw.src ∧
      sw.buf.length ≤ sw'.buf.length ∧
      ((∀ s ∈ ss, 0 ≤ s.ptr ∧ s.ptr ≤ (sw.buf.length : Int)) →
        ∀ s' ∈ ss', 0 ≤ s'.ptr ∧ s'.ptr ≤ (sw'.buf.length : Int)) ∧
      ((∀ s ∈ ss, 0 ≤ s.ptr ∧
          s.ptr ≤ (sw.buf.length : Int) + (sw.src.length : Int)) →
        ∀ s' ∈ ss', 0 ≤ s'.ptr ∧
          s'.ptr ≤ (sw'.buf.length : Int) + (sw'.src.length : Int)) := by
  intro fs
  induction fs with
  | nil =>
    intro ss sw out ss' sw' h
    simp only [roundTemplates] at h
    obtain ⟨-, h2, h3⟩ := some_triple_inv h
    subst h2; subst h3
    exact ⟨rfl, le_refl _, fun hp => hp, fun hp => hp⟩
  | cons f fs ih =>
    intro ss sw out ss' sw' h
    cases ss with
    | nil =>
      simp only [roundTemplates] at h
      obtain ⟨-, h2, h3⟩ := some_triple_inv h
      subst h2; subst h3
      exact ⟨rfl, le_refl _, fun _ => by simp, fun _ => by simp⟩
    | cons s ss =>
      simp only [roundTemplates] at h
      cases hp : processTemplate cfg fuel f s sw with
      | none => simp only [hp] at h; exact Option.noConfusion h
      | some v =>
        obtain ⟨o, s1, sw1⟩ := v
        simp only [hp] at h
        cases hq : roundTemplates cfg fuel fs ss sw1 with
        | none => simp only [hq] at h; exact Option.noConfusion h
        | some w =>
          obtain ⟨os, ss1, sw2⟩ := w
          simp only [hq] at h
          obtain ⟨-, h2, h3⟩ := some_triple_inv h
          subst h2; subst h3
          obtain ⟨step1, step2, step3, step4⟩ := processTemplate_inv cfg fuel f hp
          obtain ⟨g1, g2, g3, g4⟩ := ih ss sw1 os ss1 sw2 hq
          have hsum1 : sw1.buf.length + sw1.src.length =
              sw.buf.length + sw.src.length := by
            have := congrArg List.length step1
            simpa using this
          have hsum2 : sw2.buf.length + sw2.src.length =
              sw1.buf.length + sw1.src.length := by
            have := congrArg List.length g1
            simpa using this
          refine ⟨step1 ▸ g1, le_trans step2 g2, ?_, ?_⟩
          · intro hpre s' hs'
            have hhead := hpre s (List.mem_cons_self s ss)
            have hs1 : 0 ≤ s1.ptr ∧ s1.ptr ≤ (sw1.buf.length : Int) := by
              obtain ⟨hh1, hh2⟩ := hhead
              constructor
              · omega
              · rcases step4 hh1 with hc | hc
                · exact hc
                · subst hc; exact le_trans hh2 (by exact_mod_cast step2)
            rcases List.mem_cons.mp hs' with rfl | hs'
            · obtain ⟨hh1, hh2⟩ := hs1
              exact ⟨hh1, le_trans hh2 (by exact_mod_cast g2)⟩
            · refine g3 ?_ s' hs'
              intro s2 hs2
              obtain ⟨hh1, hh2⟩ := hpre s2 (List.mem_cons_of_mem s hs2)
              exact ⟨hh1, le_trans hh2 (by exact_mod_cast step2)⟩
          · intro hpre s' hs'
            have hhead := hpre s (List.mem_cons_self s ss)
            have hs1 : 0 ≤ s1.ptr ∧
                s1.ptr ≤ (sw1.buf.length : Int) + (sw1.src.length : Int) := by
              obtain ⟨hh1, hh2⟩ := hhead
              constructor
              · omega
              · rcases step4 hh1 with hc | hc
                · omega
                · subst hc; omega
            rcases List.mem_cons.mp hs' with rfl | hs'
            · obtain ⟨hh1, hh2⟩ := hs1
              exact ⟨hh1, by omega⟩
            · refine g4 ?_ s' hs'
              intro s2 hs2
              obtain ⟨hh1, hh2⟩ := hpre s2 (List.mem_cons_of_mem s hs2)
              exact ⟨hh1, by omega⟩

/-- Characterization of the `maxInd` fold from a running accumulator. -/
theorem maxIndex_go (ss : List SerialStream) : ∀ (a : Int),
    ∃ m, List.foldl
      (fun acc s =>
        match acc with
        | none => some s.ptr
        | some m => if m < s.ptr then some s.ptr else some m)
      (some a) ss = some m ∧
    a ≤ m ∧ (∀ s ∈ ss, s.ptr ≤ m) ∧ (m = a ∨ ∃ s ∈ ss, s.ptr = m) := by
  induction ss with
  | nil => intro a; exact ⟨a, rfl, le_refl _, by simp, Or.inl rfl⟩
  | cons s rest ih =>
    intro a
    by_cases hlt : a < s.ptr
    · obtain ⟨m, hm, h1, h2, h3⟩ := ih s.ptr
      refine ⟨m, by simpa [hlt] using hm, by omega, ?_, ?_⟩
      · intro s2 hs2
        rcases List.mem_cons.mp hs2 with rfl | hs2
        · exact h1
        · exact h2 s2 hs2
      · rcases h3 with rfl | ⟨s2, hs2, he⟩
        · exact Or.inr ⟨s, List.mem_cons_self s rest, rfl⟩
        · exact Or.inr ⟨s2, List.mem_cons_of_mem s hs2, he⟩
    · obtain ⟨m, hm, h1, h2, h3⟩ := ih a
      refine ⟨m, by simpa [hlt] using hm, h1, ?_, ?_⟩
      · intro s2 hs2
        rcases List.mem_cons.mp hs2 with rfl | hs2
        · omega
        · exact h2 s2 hs2
      · rcases h3 with rfl | ⟨s2, hs2, he⟩
        · exact Or.inl rfl
        · exact Or.inr ⟨s2, List.mem_cons_of_mem s hs2, he⟩

/-- Characterization of the `minInd` fold from a running accumulator. -/
theorem minIndex_go (ss : List SerialStream) : ∀ (a : Int),
    ∃ m, List.foldl
      (fun acc s =>
        match acc with
        | none => some s.ptr
        | some m => if m > s.ptr then some s.ptr else some m)
      (some a) ss = some m ∧
    m ≤ a ∧ (∀ s ∈ ss, m ≤ s.ptr) ∧ (m = a ∨ ∃ s ∈ ss, s.ptr = m) := by
  induction ss with
  | nil => intro a; exact ⟨a, rfl, le_refl _, by simp, Or.inl rfl⟩
  | cons s rest ih =>
    intro a
    by_cases hlt : a > s.ptr
    · obtain ⟨m, hm, h1, h2, h3⟩ := ih s.ptr
      refine ⟨m, by simpa [hlt] using hm, by omega, ?_, ?_⟩
      · intro s2 hs2
        rcases List.mem_cons.mp hs2 with rfl | hs2
        · exact h1
        · exact h2 s2 hs2
      · rcases h3 with rfl | ⟨s2, hs2, he⟩
        · exact Or.inr ⟨s, List.mem_cons_self s rest, rfl⟩
        · exact Or.inr ⟨s2, List.mem_cons_of_mem s hs2, he⟩
    · obtain ⟨m, hm, h1, h2, h3⟩ := ih a
      refine ⟨m, by simpa [hlt] using hm, h1, ?_, ?_⟩
      · intro s2 hs2
        rcases List.mem_cons.mp hs2 with rfl | hs2
        · omega
        · exact h2 s2 hs2
      · rcases h3 with rfl | ⟨s2, hs2, he⟩
        · exact Or.inl rfl
        · exact Or.inr ⟨s2, List.mem_cons_of_mem s hs2, he⟩

/-- `maxIndex` of a non-empty cursor list is the maximum cursor offset. -/
theorem maxIndex_spec (s : SerialStream) (rest : List SerialStream) :
    ∃ m, maxIndex (s :: rest) = some m ∧
      (∀ s2 ∈ s :: rest, s2.ptr ≤ m) ∧ ∃ s2 ∈ s :: rest, s2.ptr = m := by
  obtain ⟨m, hm, h1, h2, h3⟩ := maxIndex_go rest s.ptr
  refine ⟨m, ?_, ?_, ?_⟩
  · simpa [maxIndex] using hm
  · intro s2 hs2
    rcases List.mem_cons.mp hs2 with rfl | hs2
    · exact h1
    · exact h2 s2 hs2
  · rcases h3 with rfl | ⟨s2, hs2, he⟩
    · exact ⟨s, List.mem_cons_self s rest, rfl⟩
    · exact ⟨s2, List.mem_cons_of_mem s hs2, he⟩

/-- `minIndex` of a non-empty cursor list is the minimum cursor offset. -/
theorem minIndex_spec (s : SerialStream) (rest : List SerialStream) :
    ∃ m, minIndex (s :: rest) = some m ∧
      (∀ s2 ∈ s :: rest, m ≤ s2.ptr) ∧ ∃ s2 ∈ s :: rest, s2.ptr = m := by
  obtain ⟨m, hm, h1, h2, h3⟩ := minIndex_go rest s.ptr
  refine ⟨m, ?_, ?_, ?_⟩
  · simpa [minIndex] using hm
  · intro s2 hs2
    rcases List.mem_cons.mp hs2 with rfl | hs2
    · exact h1
    · exact h2 s2 hs2
  · rcases h3 with rfl | ⟨s2, hs2, he⟩
    · exact ⟨s, List.mem_cons_self s rest, rfl⟩
    · exact ⟨s2, List.mem_cons_of_mem s hs2, he⟩

/-- `pop` with a non-negative count drops that prefix of the buffer. -/
theorem pop_nonneg (sw : SerialWrapper) (m : Int) (h0 : 0 ≤ m) :
    sw.pop m = ⟨sw.buf.drop m.toNat, sw.src⟩ := by
  unfold SerialWrapper.pop pySliceFrom
  rw [if_pos h0]

/-! ### Exact characterization of reads (used for the buffered scenario) -/

/-- Python indexing at a natural index is plain list lookup. -/
theorem pyIndex_nat (l : List PyBytes) (i : Nat) :
    pyIndex l (i : Int) = l[i]? := by
  have h1 : ¬((i : Int) < 0) := by omega
  have h2 : ((i : Int)).toNat = i := Int.toNat_natCast i
  simp [pyIndex, h1, h2]

/-- Exact result of `peek` at an in-range natural index: the value at
that absolute position of buffer-then-source, with exactly the values up
to that position pulled from the source into the buffer. -/
theorem peekGo_spec : ∀ (src buf : List PyBytes) (i : Nat),
    i < buf.length + src.length →
    peekGo src buf (i : Int) =
      ((buf ++ src)[i]?).map (fun x =>
        (x, ⟨buf ++ src.take (i + 1 - buf.length),
          src.drop (i + 1 - buf.length)⟩)) := by
  intro src
  induction src with
  | nil =>
    intro buf i hi
    unfold peekGo
    have hiN : i < buf.length := by simpa using hi
    have hlt : (i : Int) < (buf.length : Int) := by exact_mod_cast hiN
    rw [if_pos hlt, pyIndex_nat buf i]
    have ht : i + 1 - buf.length = 0 := by omega
    simp [ht]
  | cons hd rest ih =>
    intro buf i hi
    unfold peekGo
    by_cases hlt : (i : Int) < (buf.length : Int)
    · rw [if_pos hlt, pyIndex_nat buf i]
      have hiN : i < buf.length := by exact_mod_cast hlt
      have ht : i + 1 - buf.length = 0 := by omega
      rw [ht]
      simp only [List.take_zero, List.append_nil, List.drop_zero]
      rw [List.getElem?_append_left hiN]
    · rw [if_neg hlt]
      have hge : buf.length ≤ i := by
        have : ¬(i < buf.length) := fun hc => hlt (by exact_mod_cast hc)
        omega
      have h' : peekGo rest (buf ++ [hd]) (i : Int) =
          (((buf ++ [hd]) ++ rest)[i]?).map (fun x =>
            (x, ⟨(buf ++ [hd]) ++ rest.take (i + 1 - (buf ++ [hd]).length),
              rest.drop (i + 1 - (buf ++ [hd]).length)⟩)) :=
        ih (buf ++ [hd]) i (by simp at hi ⊢; omega)
      show peekGo rest (buf ++ [hd]) (i : Int) = _
      rw [h']
      have hlen : (buf ++ [hd]).length = buf.length + 1 := by simp
      have ha1 : i + 1 - (buf.length + 1) = i - buf.length := by omega
      have ha2 : i + 1 - buf.length = (i - buf.length) + 1 := by omega
      rw [hlen, ha1, ha2]
      simp [List.append_assoc, List.take_succ_cons, List.drop_succ_cons]

/-- Exact result of a cursor read at an in-range natural offset. -/
theorem read_spec (st : SerialStream) (sw : SerialWrapper) (i : Nat)
    (hp : st.ptr = (i : Int)) (hi : i < sw.buf.length + sw.src.length) :
    st.read sw = ((sw.buf ++ sw.src)[i]?).map (fun x =>
      (x, (⟨(i : Int) + 1⟩ : SerialStream),
        (⟨sw.buf ++ sw.src.take (i + 1 - sw.buf.length),
          sw.src.drop (i + 1 - sw.buf.length)⟩ : SerialWrapper))) := by
  unfold SerialStream.read SerialWrapper.peek
  rw [hp, peekGo_spec sw.src sw.buf i hi]
  cases hget : (sw.buf ++ sw.src)[i]? with
  | none => rfl
  | some x => rfl

/-- Reads from a state of the shape `buffer = B ++ take t of the source
tail, pending = drop t of the source tail` stay in that shape, with the
returned value read off `B ++ src` directly. -/
theorem scenario_read (B src : List PyBytes) (n t t' i : Nat)
    (st st' : SerialStream) (hst : st.ptr = (i : Int))
    (hst' : st'.ptr = (i : Int) + 1)
    (hB : B.length = n) (ht : t ≤ src.length)
    (ht' : t' = max t (i + 1 - n))
    (hi : i < n + src.length) :
    ∃ x, (B ++ src)[i]? = some x ∧
      st.read ⟨B ++ src.take t, src.drop t⟩ =
        some (x, st', ⟨B ++ src.take t', src.drop t'⟩) := by
  have hlen : (B ++ src.take t).length = n + t := by
    simp [hB, List.length_take]
    omega
  have hitot : i < (B ++ src.take t).length + (src.drop t).length := by
    simp only [hlen, List.length_drop]
    omega
  obtain ⟨p⟩ := st
  obtain ⟨p'⟩ := st'
  have hp : p = (i : Int) := hst
  have hp' : p' = (i : Int) + 1 := hst'
  subst hp
  subst hp'
  have hread := read_spec ⟨(i : Int)⟩ ⟨B ++ src.take t, src.drop t⟩ i rfl hitot
  have hsplit : (B ++ src.take t) ++ src.drop t = B ++ src := by
    rw [List.append_assoc, List.take_append_drop]
  have hallLen : i < (B ++ src).length := by simp [hB]; omega
  obtain ⟨x, hx⟩ : ∃ x, (B ++ src)[i]? = some x :=
    ⟨(B ++ src)[i], List.getElem?_eq_getElem hallLen⟩
  refine ⟨x, hx, ?_⟩
  rw [hread]
  simp only [hsplit, hx, Option.map_some', hlen]
  have htake : src.take t ++ (src.drop t).take (i + 1 - (n + t)) =
      src.take t' := by
    rw [← List.take_add]
    congr 1
    omega
  have hdrop : (src.drop t).drop (i + 1 - (n + t)) = src.drop t' := by
    rw [List.drop_drop]
    congr 1
    omega
  rw [List.append_assoc, htake, hdrop]

/-! ### The buffered example scenario (templates consuming 1 and 3) -/

/-- One `a` escape against a cursor with a known read result. -/
theorem processEscape_a_eq (st : SerialStream) (sw : SerialWrapper)
    (x : PyBytes) (st1 : SerialStream) (sw1 : SerialWrapper)
    (hr : st.read sw = some (x, st1, sw1)) :
    processEscape cfgScenario 2 'a' st sw =
      some ([chrNat (byteToInt .big x)], st1, sw1) := by
  rw [processEscape]
  have hf : findHandler 'a' escapeHandlers = some .a := rfl
  rw [hf]
  simp only [runHandler, readThen, hr, cfgScenario]

/-- Template `%a` against a cursor with a known read result. -/
theorem processTemplate_a (st : SerialStream) (sw : SerialWrapper)
    (x : PyBytes) (st1 : SerialStream) (sw1 : SerialWrapper)
    (hr : st.read sw = some (x, st1, sw1)) :
    processTemplate cfgScenario 2 ['%', 'a'] st sw =
      some ([chrNat (byteToInt .big x)], st1, sw1) := by
  have hs : splitOnChar cfgScenario.escape ['%', 'a'] = [[], ['a']] := rfl
  unfold processTemplate
  rw [hs]
  simp only [processToks, processTok, processEscape_a_eq st sw x st1 sw1 hr]
  simp

/-- Template `%a%a%a` against a cursor with three known read results. -/
theorem processTemplate_aaa (st : SerialStream) (sw : SerialWrapper)
    (x1 x2 x3 : PyBytes) (st1 st2 st3 : SerialStream)
    (sw1 sw2 sw3 : SerialWrapper)
    (h1 : st.read sw = some (x1, st1, sw1))
    (h2 : st1.read sw1 = some (x2, st2, sw2))
    (h3 : st2.read sw2 = some (x3, st3, sw3)) :
    processTemplate cfgScenario 2 ['%', 'a', '%', 'a', '%', 'a'] st sw =
      some ([chrNat (byteToInt .big x1), chrNat (byteToInt .big x2),
        chrNat (byteToInt .big x3)], st3, sw3) := by
  have hs : splitOnChar cfgScenario.escape ['%', 'a', '%', 'a', '%', 'a'] =
      [[], ['a'], ['a'], ['a']] := rfl
  unfold processTemplate
  rw [hs]
  simp only [processToks, processTok,
    processEscape_a_eq st sw x1 st1 sw1 h1,
    processEscape_a_eq st1 sw1 x2 st2 sw2 h2,
    processEscape_a_eq st2 sw2 x3 st3 sw3 h3]
  simp

/-- One full round of the example scenario from the state shape reached
after any number of rounds: cursors at 0 and `n`, buffer of length `n`. -/
theorem scenario_round (B src : List PyBytes) (n : Nat)
    (hB : B.length = n) (hsrc : 3 ≤ src.length) :
    ∃ out, roundTemplates cfgScenario 2 cfgScenario.formats
        [⟨0⟩, ⟨(n : Int)⟩] ⟨B, src⟩ =
      some (out, [⟨1⟩, ⟨(n : Int) + 3⟩], ⟨B ++ src.take 3, src.drop 3⟩) := by
  obtain ⟨x0, -, hr0⟩ := scenario_read B src n 0 (1 - n) 0 ⟨0⟩ ⟨1⟩ (by simp)
    (by simp) hB (by omega) (by omega) (by omega)
  rw [List.take_zero, List.append_nil, List.drop_zero] at hr0
  obtain ⟨x1, -, hr1⟩ := scenario_read B src n (1 - n) 1 n ⟨(n : Int)⟩
    ⟨(n : Int) + 1⟩ rfl rfl hB (by omega) (by omega) (by omega)
  obtain ⟨x2, -, hr2⟩ := scenario_read B src n 1 2 (n + 1)
    ⟨(n : Int) + 1⟩ ⟨(n : Int) + 2⟩ (by push_cast; ring)
    (by push_cast; ring) hB (by omega) (by omega) (by omega)
  obtain ⟨x3, -, hr3⟩ := scenario_read B src n 2 3 (n + 2)
    ⟨(n : Int) + 2⟩ ⟨(n : Int) + 3⟩ (by push_cast; ring)
    (by push_cast; ring) hB (by omega) (by omega) (by omega)
  have htA := processTemplate_a ⟨0⟩ ⟨B, src⟩ x0 _ _ hr0
  have htB := processTemplate_aaa ⟨(n : Int)⟩ ⟨B ++ src.take (1 - n),
    src.drop (1 - n)⟩ x1 x2 x3 _ _ _ _ _ _ hr1 hr2 hr3
  refine ⟨[chrNat (byteToInt .big x0)] ++
    ([chrNat (byteToInt .big x1), chrNat (byteToInt .big x2),
      chrNat (byteToInt .big x3)] ++ []), ?_⟩
  have hforms : cfgScenario.formats =
      [['%', 'a'], ['%', 'a', '%', 'a', '%', 'a']] := rfl
  rw [hforms]
  simp only [roundTemplates, htA, htB]

/-- Reconciliation of the example scenario round: the minimum is 1. -/
theorem scenario_reconcile (n : Nat) (sw : SerialWrapper) :
    reconcile true [⟨1⟩, ⟨(n : Int) + 3⟩] sw =
      some ([⟨0⟩, ⟨(n : Int) + 2⟩], sw.pop 1) := by
  have hmin : minIndex [⟨1⟩, ⟨(n : Int) + 3⟩] = some 1 := by
    have hgt : ¬((1 : Int) > (n : Int) + 3) := by omega
    simp [minIndex, hgt]
  have e1 : (⟨1⟩ : SerialStream).trim 1 = ⟨0⟩ := by
    simp [SerialStream.trim]
  have e2 : (⟨(n : Int) + 3⟩ : SerialStream).trim 1 = ⟨(n : Int) + 2⟩ := by
    simp only [SerialStream.trim, SerialStream.mk.injEq]
    ring
  simp only [reconcile, hmin, List.map_cons, List.map_nil, e1, e2]

/-- One full `Session.read` of the example scenario. -/
theorem scenario_step (B src : List PyBytes) (n : Nat)
    (hB : B.length = n) (hsrc : 3 ≤ src.length) :
    ∃ out, sessionRead cfgScenario 2 [⟨0⟩, ⟨(n : Int)⟩] ⟨B, src⟩ =
      some (out, [⟨0⟩, ⟨(n : Int) + 2⟩],
        ⟨(B ++ src.take 3).drop 1, src.drop 3⟩) := by
  obtain ⟨out, hround⟩ := scenario_round B src n hB hsrc
  refine ⟨out, ?_⟩
  unfold sessionRead
  have hbuf : cfgScenario.buffer = true := rfl
  simp only [hround, hbuf, scenario_reconcile]
  rw [pop_nonneg _ 1 (by omega)]
  norm_num

/-- The example scenario, iterated: after `r` rounds from the initial
state, template A's cursor is at 0, template B's at `2*r`, the buffer
holds exactly the `2*r` values B has looked ahead, and `3*r` values have
been pulled from the source. -/
theorem scenario_iter (r : Nat) : ∀ (B src : List PyBytes) (n : Nat),
    B.length = n → 3 * r ≤ src.length →
    iterRead cfgScenario 2 r [⟨0⟩, ⟨(n : Int)⟩] ⟨B, src⟩ =
      some ([⟨0⟩, ⟨(n : Int) + 2 * (r : Int)⟩],
        ⟨(B ++ src.take (3 * r)).drop r, src.drop (3 * r)⟩) := by
  induction r with
  | zero =>
    intro B src n hB hsrc
    simp [iterRead]
  | succ r ih =>
    intro B src n hB hsrc
    obtain ⟨out, hstep⟩ := scenario_step B src n hB (by omega)
    rw [iterRead]
    simp only [hstep]
    have hlen1 : ((B ++ src.take 3).drop 1).length = n + 2 := by
      simp [hB, List.length_take]
      omega
    have ih' := ih ((B ++ src.take 3).drop 1) (src.drop 3) (n + 2) hlen1
      (by simp [List.length_drop]; omega)
    have hcast : (((n + 2 : Nat) : Int)) = (n : Int) + 2 := by push_cast; ring
    rw [hcast] at ih'
    rw [ih']
    have hD : (1 : Nat) - (B ++ src.take 3).length = 0 := by
      simp [hB, List.length_take]
      omega
    have hbuf2 : ((B ++ src.take 3).drop 1 ++
        (src.drop 3).take (3 * r)).drop r =
        (B ++ src.take (3 * (r + 1))).drop (r + 1) := by
      have h1 : ((B ++ src.take 3) ++ (src.drop 3).take (3 * r)).drop 1 =
          (B ++ src.take 3).drop 1 ++ (src.drop 3).take (3 * r) := by
        rw [List.drop_append_eq_append_drop, hD, List.drop_zero]
      rw [← h1, List.drop_drop]
      have h2 : (B ++ src.take 3) ++ (src.drop 3).take (3 * r) =
          B ++ src.take (3 * (r + 1)) := by
        rw [List.append_assoc]
        congr 1
        rw [← List.take_add]
        congr 1
        ring
      rw [h2]
      congr 1
      omega
    have hsrc2 : (src.drop 3).drop (3 * r) = src.drop (3 * (r + 1)) := by
      rw [List.drop_drop]
      congr 1
      ring
    have hcur : (n : Int) + 2 + 2 * (r : Int) =
        (n : Int) + 2 * ((r + 1 : Nat) : Int) := by
      push_cast
      ring
    rw [hbuf2, hsrc2, hcur]

/-- Buffered reconciliation after any round: every cursor rewound by
exactly the minimum final offset `m`, the buffer drops exactly `m`
elements (all below every cursor, so nothing is dropped before every
template has consumed it), the pending source untouched. -/
theorem buffered_round_spec (cfg : Config) (fuel : Nat)
    (ss ss1 ss2 : List SerialStream) (sw sw1 sw2 : SerialWrapper)
    (out : List Char)
    (hmode : cfg.buffer = true)
    (hpre : ∀ s ∈ ss, 0 ≤ s.ptr ∧ s.ptr ≤ (sw.buf.length : Int))
    (hround : roundTemplates cfg fuel cfg.formats ss sw = some (out, ss1, sw1))
    (hrec : reconcile cfg.buffer ss1 sw1 = some (ss2, sw2)) :
    sessionRead cfg fuel ss sw = some (out, ss2, sw2) ∧
    ∃ m : Int, minIndex ss1 = some m ∧
      (∀ s ∈ ss1, m ≤ s.ptr) ∧ (∃ s ∈ ss1, s.ptr = m) ∧
      0 ≤ m ∧ m.toNat ≤ sw1.buf.length ∧
      ss2 = ss1.map (fun s => s.trim m) ∧
      sw2.buf = sw1.buf.drop m.toNat ∧
      sw2.buf.length = sw1.buf.length - m.toNat ∧
      sw2.src = sw1.src := by
  have hsess : sessionRead cfg fuel ss sw = some (out, ss2, sw2) := by
    unfold sessionRead
    simp only [hround, hrec]
  refine ⟨hsess, ?_⟩
  have hmid := (roundTemplates_inv cfg fuel cfg.formats ss sw out ss1 sw1
    hround).2.2.1 hpre
  rw [hmode] at hrec
  cases ss1 with
  | nil => simp [reconcile, minIndex] at hrec
  | cons s rest =>
    obtain ⟨m, hm, hle, hex⟩ := minIndex_spec s rest
    simp only [reconcile, hm] at hrec
    obtain ⟨h4, h5⟩ := some_pair_inv hrec
    obtain ⟨s2, hs2, hs2e⟩ := hex
    have h0m : 0 ≤ m := hs2e ▸ (hmid s2 hs2).1
    have hmlen : m.toNat ≤ sw1.buf.length := by
      have := (hmid s2 hs2).2
      omega
    have hpop : sw1.pop m = ⟨sw1.buf.drop m.toNat, sw1.src⟩ :=
      pop_nonneg sw1 m h0m
    refine ⟨m, hm, hle, ⟨s2, hs2, hs2e⟩, h0m, hmlen, h4.symm, ?_, ?_, ?_⟩
    · rw [← h5, hpop]
    · rw [← h5, hpop]
      simp [List.length_drop]
    · rw [← h5, hpop]

/-- C2 counterexample: in buffered mode with templates `%x%x` (constant
consumption 2) and `%e` (data-dependent consumption), source reads
`0x6E('n'), 0x64('d'), 0x00, 0x00`, round 1 moves the cursors from
(0, 0) to (2, 1) — per-template consumption 2 and 1 — and round 2 moves
them from (1, 0) to (3, 3) — consumption 2 and 3.  The claim's sum of
(max − min) consumption over the two rounds is (2-1)+(3-2) = 2, but
after round 2 the buffer's unread length is 0: the claimed equation is
false for this template set. -/
theorem C2_buffered_cex :
    sessionRead cfgCex 2 [⟨0⟩, ⟨0⟩] ⟨[], [[110], [100], [0], [0]]⟩ =
        some (['\n'], [⟨1⟩, ⟨0⟩], ⟨[[100]], [[0], [0]]⟩) ∧
      roundTemplates cfgCex 2 cfgCex.formats [⟨0⟩, ⟨0⟩]
          ⟨[], [[110], [100], [0], [0]]⟩ =
        some (['\n'], [⟨2⟩, ⟨1⟩], ⟨[[110], [100]], [[0], [0]]⟩) ∧
      sessionRead cfgCex 2 [⟨1⟩, ⟨0⟩] ⟨[[100]], [[0], [0]]⟩ =
        some (['0'], [⟨0⟩, ⟨0⟩], ⟨[], []⟩) ∧
      roundTemplates cfgCex 2 cfgCex.formats [⟨1⟩, ⟨0⟩]
          ⟨[[100]], [[0], [0]]⟩ =
        some (['0'], [⟨3⟩, ⟨3⟩], ⟨[[100], [0], [0]], []⟩) ∧
      (2 - 1) + (3 - 2) ≠ (([] : List PyBytes)).length := by
  refine ⟨by decide, by decide, by decide, by decide, by decide⟩

/-- C2 (amended): in buffered mode, after reconciliation every cursor's
offset has decreased by exactly `m` and the buffer has dropped exactly
`m` elements, where `m` is the minimum final cursor offset across all
templates in that round, so no element is dropped before every template
has consumed it.  The buffer's unread length equals the sum over past
rounds of (maximum consumption − minimum consumption) for templates of
constant per-round consumption, as in the spec's example scenario
(template A consuming 1 value per round, template B consuming 3), for
any number of rounds and any source data. -/
theorem C2_buffered_amended :
    (∀ (cfg : Config) (fuel : Nat) (ss ss1 ss2 : List SerialStream)
      (sw sw1 sw2 : SerialWrapper) (out : List Char),
      cfg.buffer = true →
      (∀ s ∈ ss, 0 ≤ s.ptr ∧ s.ptr ≤ (sw.buf.length : Int)) →
      roundTemplates cfg fuel cfg.formats ss sw = some (out, ss1, sw1) →
      reconcile cfg.buffer ss1 sw1 = some (ss2, sw2) →
      sessionRead cfg fuel ss sw = some (out, ss2, sw2) ∧
      ∃ m : Int, minIndex ss1 = some m ∧
        (∀ s ∈ ss1, m ≤ s.ptr) ∧ (∃ s ∈ ss1, s.ptr = m) ∧
        0 ≤ m ∧ m.toNat ≤ sw1.buf.length ∧
        ss2 = ss1.map (fun s => s.trim m) ∧
        sw2.buf = sw1.buf.drop m.toNat ∧
        sw2.buf.length = sw1.buf.length - m.toNat ∧
        sw2.src = sw1.src) ∧
    (∀ (r : Nat) (src : List PyBytes), 3 * r ≤ src.length →
      iterRead cfgScenario 2 r (mkStreams cfgScenario.formats) ⟨[], src⟩ =
        some ([⟨0⟩, ⟨2 * (r : Int)⟩],
          ⟨(src.take (3 * r)).drop r, src.drop (3 * r)⟩) ∧
      ((src.take (3 * r)).drop r).length =
        (Finset.range r).sum (fun _ => 3 - 1)) := by
  constructor
  · intro cfg fuel ss ss1 ss2 sw sw1 sw2 out hmode hpre hround hrec
    exact buffered_round_spec cfg fuel ss ss1 ss2 sw sw1 sw2 out hmode hpre
      hround hrec
  · intro r src hsrc
    have hit := scenario_iter r [] src 0 rfl hsrc
    constructor
    · have hms : mkStreams cfgScenario.formats = [⟨0⟩, ⟨0⟩] := rfl
      rw [hms]
      simpa using hit
    · simp [List.length_drop, List.length_take, Finset.sum_const,
        Finset.card_range]
      omega

theorem C2_buffered_amended_witness :
    sessionRead cfgScenario 2 [⟨0⟩, ⟨0⟩] ⟨[], [[65], [66], [67]]⟩ =
        some (['A', 'A', 'B', 'C'], [⟨0⟩, ⟨2⟩], ⟨[[66], [67]], []⟩) ∧
      iterRead cfgScenario 2 1 [⟨0⟩, ⟨0⟩] ⟨[], [[65], [66], [67]]⟩ =
        some ([⟨0⟩, ⟨2⟩], ⟨[[66], [67]], []⟩) := by
  constructor
  · exact (C2_buffered_amended.1 cfgScenario 2 [⟨0⟩, ⟨0⟩] [⟨1⟩, ⟨3⟩]
      [⟨0⟩, ⟨2⟩] ⟨[], [[65], [66], [67]]⟩ ⟨[[65], [66], [67]], []⟩
      ⟨[[66], [67]], []⟩ ['A', 'A', 'B', 'C'] rfl (by decide) (by decide)
      (by decide)).1
  · have h := (C2_buffered_amended.2 1 [[65], [66], [67]] (by decide)).1
    simpa [mkStreams, cfgScenario] using h

/-- C1: in synchronized mode, for every round, after reconciliation every
cursor's offset equals 0 and the buffer has dropped exactly `M` elements,
where `M` is the maximum final cursor offset reached across all templates
in that round.  The post-reconciliation buffer is exactly the suffix of
the pre-reconciliation buffer from position `M` on, and the pending
source is untouched, so the elements at positions below `M` (in
particular those between a slower template's own consumption and `M`) are
no longer part of the state; as every later round is a pure function of
that state, those elements are never read by any template again. -/
theorem C1_synchronized (cfg : Config) (fuel : Nat)
    (ss ss1 ss2 : List SerialStream) (sw sw1 sw2 : SerialWrapper)
    (out : List Char)
    (hmode : cfg.buffer = false)
    (hpre : ∀ s ∈ ss, 0 ≤ s.ptr ∧ s.ptr ≤ (sw.buf.length : Int))
    (hround : roundTemplates cfg fuel cfg.formats ss sw = some (out, ss1, sw1))
    (hrec : reconcile cfg.buffer ss1 sw1 = some (ss2, sw2)) :
    sessionRead cfg fuel ss sw = some (out, ss2, sw2) ∧
    ∃ M : Int, maxIndex ss1 = some M ∧
      (∀ s ∈ ss1, s.ptr ≤ M) ∧ (∃ s ∈ ss1, s.ptr = M) ∧
      0 ≤ M ∧ M.toNat ≤ sw1.buf.length ∧
      (∀ s2 ∈ ss2, s2.ptr = 0) ∧
      sw2.buf = sw1.buf.drop M.toNat ∧
      sw2.buf.length = sw1.buf.length - M.toNat ∧
      sw2.src = sw1.src := by
  have hsess : sessionRead cfg fuel ss sw = some (out, ss2, sw2) := by
    unfold sessionRead
    simp only [hround, hrec]
  refine ⟨hsess, ?_⟩
  have hmid := (roundTemplates_inv cfg fuel cfg.formats ss sw out ss1 sw1
    hround).2.2.1 hpre
  rw [hmode] at hrec
  cases ss1 with
  | nil => simp [reconcile, maxIndex] at hrec
  | cons s rest =>
    obtain ⟨M, hM, hle, hex⟩ := maxIndex_spec s rest
    simp only [reconcile, hM] at hrec
    obtain ⟨h4, h5⟩ := some_pair_inv hrec
    obtain ⟨s2, hs2, hs2e⟩ := hex
    have h0M : 0 ≤ M := hs2e ▸ (hmid s2 hs2).1
    have hMlen : M.toNat ≤ sw1.buf.length := by
      have := (hmid s2 hs2).2
      omega
    have hpop : sw1.pop M = ⟨sw1.buf.drop M.toNat, sw1.src⟩ :=
      pop_nonneg sw1 M h0M
    refine ⟨M, hM, hle, ⟨s2, hs2, hs2e⟩, h0M, hMlen, ?_, ?_, ?_, ?_⟩
    · intro s3 hs3
      rw [← h4] at hs3
      rcases List.mem_map.mp hs3 with ⟨s4, _, rfl⟩
      simp [SerialStream.trim]
    · rw [← h5, hpop]
    · rw [← h5, hpop]
      simp [List.length_drop]
    · rw [← h5, hpop]

theorem C1_synchronized_witness :
    sessionRead ⟨'%', .big, [['%', 'a'], ['%', 'a', '%', 'a', '%', 'a']],
        false⟩ 2 [⟨0⟩, ⟨0⟩] ⟨[], [[65], [66], [67], [68]]⟩ =
      some (['A', 'A', 'B', 'C'], [⟨0⟩, ⟨0⟩], ⟨[], [[68]]⟩) :=
  (C1_synchronized
    ⟨'%', .big, [['%', 'a'], ['%', 'a', '%', 'a', '%', 'a']], false⟩ 2
    [⟨0⟩, ⟨0⟩] [⟨1⟩, ⟨3⟩] [⟨0⟩, ⟨0⟩] ⟨[], [[65], [66], [67], [68]]⟩
    ⟨[[65], [66], [67]], [[68]]⟩ ⟨[], [[68]]⟩ ['A', 'A', 'B', 'C']
    rfl (by decide) (by decide) (by decide)).1

/-- C9: under both reconciliation policies, for every round starting from
a state where all cursor offsets are non-negative and at most the buffer
length plus the number of pending source values, after reconciliation
every cursor's offset is non-negative and at most the new buffer length
plus the number of values still pending at the source (it addresses an
element still present in the buffer or one not yet pulled). -/
theorem C9_offsets_in_range (cfg : Config) (fuel : Nat)
    (ss ss' : List SerialStream) (sw sw' : SerialWrapper) (out : List Char)
    (hpre : ∀ s ∈ ss, 0 ≤ s.ptr ∧
      s.ptr ≤ (sw.buf.length : Int) + (sw.src.length : Int))
    (h : sessionRead cfg fuel ss sw = some (out, ss', sw')) :
    ∀ s' ∈ ss', 0 ≤ s'.ptr ∧
      s'.ptr ≤ (sw'.buf.length : Int) + (sw'.src.length : Int) := by
  unfold sessionRead at h
  cases hround : roundTemplates cfg fuel cfg.formats ss sw with
  | none => simp only [hround] at h; exact Option.noConfusion h
  | some v =>
    obtain ⟨o1, ss1, sw1⟩ := v
    simp only [hround] at h
    cases hrec : reconcile cfg.buffer ss1 sw1 with
    | none => simp only [hrec] at h; exact Option.noConfusion h
    | some w =>
      obtain ⟨ss2, sw2⟩ := w
      simp only [hrec] at h
      obtain ⟨-, h2, h3⟩ := some_triple_inv h
      subst h2; subst h3
      have hmid := (roundTemplates_inv cfg fuel cfg.formats ss sw o1 ss1 sw1
        hround).2.2.2 hpre
      cases hb : cfg.buffer with
      | false =>
        rw [hb] at hrec
        cases ss1 with
        | nil => simp [reconcile, maxIndex] at hrec
        | cons s rest =>
          obtain ⟨M, hM, hle, hex⟩ := maxIndex_spec s rest
          simp only [reconcile, hM] at hrec
          obtain ⟨h4, h5⟩ := some_pair_inv hrec
          intro s' hs'
          rw [← h4] at hs'
          rcases List.mem_map.mp hs' with ⟨s4, _, rfl⟩
          simp only [SerialStream.trim, sub_self]
          constructor
          · exact le_refl 0
          · positivity
      | true =>
        rw [hb] at hrec
        cases ss1 with
        | nil => simp [reconcile, minIndex] at hrec
        | cons s rest =>
          obtain ⟨m, hm, hle, hex⟩ := minIndex_spec s rest
          simp only [reconcile, hm] at hrec
          obtain ⟨h4, h5⟩ := some_pair_inv hrec
          obtain ⟨s2, hs2, hs2e⟩ := hex
          have h0m : 0 ≤ m := hs2e ▸ (hmid s2 hs2).1
          have hpop : sw1.pop m = ⟨sw1.buf.drop m.toNat, sw1.src⟩ :=
            pop_nonneg sw1 m h0m
          intro s' hs'
          rw [← h4] at hs'
          rcases List.mem_map.mp hs' with ⟨s4, hs4, rfl⟩
          obtain ⟨ha, hb2⟩ := hmid s4 hs4
          have hm4 : m ≤ s4.ptr := hle s4 hs4
          rw [← h5, hpop]
          simp only [SerialStream.trim, List.length_drop]
          constructor
          · omega
          · omega

/-! ### Byte-order noninterference (C10) -/

/-- What `serial.read()` can deliver: a bytes object of length at most 1
(one byte, or an empty timeout read).  The property holds for the buffer
and for everything still pending at the source. -/
def WFBytes (sw : SerialWrapper) : Prop :=
  ∀ b ∈ sw.buf ++ sw.src, b.length ≤ 1

theorem WFBytes_of_append_eq {sw sw' : SerialWrapper}
    (h : sw'.buf ++ sw'.src = sw.buf ++ sw.src) (hwf : WFBytes sw) :
    WFBytes sw' := by
  intro b hb
  exact hwf b (h ▸ hb)

/-- `int.from_bytes` ignores the byte order on values of length ≤ 1. -/
theorem byteToInt_bo {b : PyBytes} (hb : b.length ≤ 1) :
    byteToInt .big b = byteToInt .little b := by
  cases b with
  | nil => rfl
  | cons x tl =>
    cases tl with
    | nil => rfl
    | cons y tl2 => simp at hb

/-- Escape processing is byte-order independent (all built-in conversions
decode one value at a time; the two-byte operation composes explicitly). -/
theorem processEscape_bo (esc : Char) (formats : List (List Char))
    (buffer : Bool) :
    ∀ (fuel : Nat) (c : Char) (st : SerialStream) (sw : SerialWrapper),
      WFBytes sw →
      processEscape ⟨esc, .big, formats, buffer⟩ fuel c st sw =
        processEscape ⟨esc, .little, formats, buffer⟩ fuel c st sw := by
  intro fuel
  induction fuel with
  | zero => intro c st sw _; rfl
  | succ fuel ih =>
    intro c st sw hwf
    rw [processEscape, processEscape]
    cases hf : findHandler c escapeHandlers with
    | none => rfl
    | some eh =>
      cases eh
      case b =>
        simp only [runHandler, readThen]
        cases hr : st.read sw with
        | none => rfl
        | some v =>
          obtain ⟨byte, st1, sw1⟩ := v
          obtain ⟨-, -, -, hmem, -⟩ := read_inv hr
          simp [byteToInt_bo (hwf byte hmem)]
      case h =>
        simp only [runHandler, readThen]
        cases hr : st.read sw with
        | none => rfl
        | some v =>
          obtain ⟨byte, st1, sw1⟩ := v
          obtain ⟨-, -, -, hmem, -⟩ := read_inv hr
          simp [byteToInt_bo (hwf byte hmem)]
      case i =>
        simp only [runHandler, readThen]
        cases hr : st.read sw with
        | none => rfl
        | some v =>
          obtain ⟨byte, st1, sw1⟩ := v
          obtain ⟨-, -, -, hmem, -⟩ := read_inv hr
          simp [byteToInt_bo (hwf byte hmem)]
      case d =>
        simp only [runHandler, readThen]
        cases hr1 : st.read sw with
        | none => rfl
        | some v =>
          obtain ⟨b1, st1, sw1⟩ := v
          obtain ⟨-, happ, -, hmem1, -⟩ := read_inv hr1
          have hwf1 : WFBytes sw1 := WFBytes_of_append_eq happ hwf
          simp only [byteToInt_bo (hwf b1 hmem1)]
          cases hr2 : st1.read sw1 with
          | none => simp only [hr2]
          | some w =>
            obtain ⟨b2, st2, sw2⟩ := w
            obtain ⟨-, -, -, hmem2, -⟩ := read_inv hr2
            simp only [hr2, byteToInt_bo (hwf1 b2 hmem2)]
      case a =>
        simp only [runHandler, readThen]
        cases hr : st.read sw with
        | none => rfl
        | some v =>
          obtain ⟨byte, st1, sw1⟩ := v
          obtain ⟨-, -, -, hmem, -⟩ := read_inv hr
          simp [byteToInt_bo (hwf byte hmem)]
      case x => rfl
      case e =>
        simp only [runHandler, readThen]
        cases hr : st.read sw with
        | none => rfl
        | some v =>
          obtain ⟨byte, st1, sw1⟩ := v
          obtain ⟨-, happ, -, hmem, -⟩ := read_inv hr
          have hwf1 : WFBytes sw1 := WFBytes_of_append_eq happ hwf
          have hby := byteToInt_bo (hwf byte hmem)
          simp only [hby]
          by_cases hc : chrNat (byteToInt ByteOrder.little byte) = 'e'
          · simp [hc]
          · simp only [if_neg hc]
            exact ih (chrNat (byteToInt ByteOrder.little byte)) st1 sw1 hwf1
      case n => rfl
      case t => rfl

/-- Token processing is byte-order independent. -/
theorem processTok_bo (esc : Char) (formats : List (List Char))
    (buffer : Bool) (fuel : Nat) (t : List Char) (st : SerialStream)
    (sw : SerialWrapper) (hwf : WFBytes sw) :
    processTok ⟨esc, .big, formats, buffer⟩ fuel t st sw =
      processTok ⟨esc, .little, formats, buffer⟩ fuel t st sw := by
  cases t with
  | nil =>
    simp only [processTok]
    exact processEscape_bo esc formats buffer fuel esc st sw hwf
  | cons c tl =>
    simp only [processTok]
    rw [processEscape_bo esc formats buffer fuel c st sw hwf]

/-- Token-list processing is byte-order independent. -/
theorem processToks_bo (esc : Char) (formats : List (List Char))
    (buffer : Bool) (fuel : Nat) :
    ∀ (toks : List (List Char)) (st : SerialStream) (sw : SerialWrapper),
      WFBytes sw →
      processToks ⟨esc, .big, formats, buffer⟩ fuel toks st sw =
        processToks ⟨esc, .little, formats, buffer⟩ fuel toks st sw := by
  intro toks
  induction toks with
  | nil => intro st sw _; rfl
  | cons t rest ih =>
    intro st sw hwf
    simp only [processToks]
    rw [processTok_bo esc formats buffer fuel t st sw hwf]
    cases hp : processTok ⟨esc, .little, formats, buffer⟩ fuel t st sw with
    | none => rfl
    | some v =>
      obtain ⟨o, st1, sw1⟩ := v
      have hwf1 : WFBytes sw1 :=
        WFBytes_of_append_eq (processTok_inv _ fuel t hp).1 hwf
      simp only [ih st1 sw1 hwf1]

/-- Template processing is byte-order independent. -/
theorem processTemplate_bo (esc : Char) (formats : List (List Char))
    (buffer : Bool) (fuel : Nat) (f : List Char) (st : SerialStream)
    (sw : SerialWrapper) (hwf : WFBytes sw) :
    processTemplate ⟨esc, .big, formats, buffer⟩ fuel f st sw =
      processTemplate ⟨esc, .little, formats, buffer⟩ fuel f st sw := by
  simp only [processTemplate]
  cases hs : splitOnChar esc f with
  | nil => rfl
  | cons t0 toks =>
    have hb := processToks_bo esc formats buffer fuel toks st sw hwf
    simp only [hb]

/-- Whole-round template processing is byte-order independent. -/
theorem roundTemplates_bo (esc : Char) (formats : List (List Char))
    (buffer : Bool) (fuel : Nat) :
    ∀ (fs : List (List Char)) (ss : List SerialStream) (sw : SerialWrapper),
      WFBytes sw →
      roundTemplates ⟨esc, .big, formats, buffer⟩ fuel fs ss sw =
        roundTemplates ⟨esc, .little, formats, buffer⟩ fuel fs ss sw := by
  intro fs
  induction fs with
  | nil => intro ss sw _; rfl
  | cons f fs ih =>
    intro ss sw hwf
    cases ss with
    | nil => rfl
    | cons s ss =>
      simp only [roundTemplates]
      rw [processTemplate_bo esc formats buffer fuel f s sw hwf]
      cases hp : processTemplate ⟨esc, .little, formats, buffer⟩ fuel f s sw
        with
      | none => rfl
      | some v =>
        obtain ⟨o, s1, sw1⟩ := v
        have hwf1 : WFBytes sw1 :=
          WFBytes_of_append_eq (processTemplate_inv _ fuel f hp).1 hwf
        simp only [ih ss sw1 hwf1]

/-- C10: for every incoming sequence of source reads (each holding at most
one byte, as `serial.read()` guarantees), escape character, template set,
and buffering-policy flag, a round under byte order `big` and a round
under byte order `little` return identical text output and identical
final state; hence (by induction over rounds, the state being equal) the
byte-order configuration has no observable effect on any output. -/
theorem C10_byteorder_noninterference (esc : Char)
    (formats : List (List Char)) (buffer : Bool) (fuel : Nat)
    (ss : List SerialStream) (sw : SerialWrapper) (hwf : WFBytes sw) :
    sessionRead ⟨esc, .big, formats, buffer⟩ fuel ss sw =
      sessionRead ⟨esc, .little, formats, buffer⟩ fuel ss sw := by
  unfold sessionRead
  rw [roundTemplates_bo esc formats buffer fuel formats ss sw hwf]

theorem C10_byteorder_noninterference_witness :
    sessionRead ⟨'%', .big, [['%', 'd']], false⟩ 2 [⟨0⟩] ⟨[], [[1], [2]]⟩ =
      sessionRead ⟨'%', .little, [['%', 'd']], false⟩ 2 [⟨0⟩]
        ⟨[], [[1], [2]]⟩ :=
  C10_byteorder_noninterference '%' [['%', 'd']] false 2 [⟨0⟩]
    ⟨[], [[1], [2]]⟩ (by unfold WFBytes; decide)

theorem C9_offsets_in_range_witness :
    0 ≤ (⟨0⟩ : SerialStream).ptr ∧
      (⟨0⟩ : SerialStream).ptr ≤
        (((⟨[], []⟩ : SerialWrapper).buf.length : Int) +
          ((⟨[], []⟩ : SerialWrapper).src.length : Int)) :=
  C9_offsets_in_range ⟨'%', .big, [['%', 'a']], false⟩ 2 [⟨0⟩] [⟨0⟩]
    ⟨[], [[65]]⟩ ⟨[], []⟩ ['A'] (by decide) (by decide) ⟨0⟩
    (List.mem_singleton.mpr rfl)

/-- A successful cursor read advances the cursor offset by exactly 1. -/
theorem read_ptr_succ {st st1 : SerialStream} {sw sw1 : SerialWrapper}
    {byte : PyBytes} (hr : st.read sw = some (byte, st1, sw1)) :
    st1.ptr = st.ptr + 1 := by
  unfold SerialStream.read at hr
  rcases Option.map_eq_some'.mp hr with ⟨p, _, hp⟩
  cases hp
  rfl

/-- The registry lookup for the dynamic escape code resolves to the
dynamic handler. -/
theorem findHandler_e : findHandler 'e' escapeHandlers = some .e := by decide

/-! ### Claim theorems: registry-level behaviour -/

/-- C7: for every escape code character that matches no operation in the
escape registry, processing that escape occurrence emits the literal
`<BADESC>`, consumes zero bytes from the stream, and leaves the cursor
offset (and the whole buffer state) exactly as it was. -/
theorem C7_unknown_escape (cfg : Config) (fuel : Nat) (c : Char)
    (st : SerialStream) (sw : SerialWrapper)
    (hc : findHandler c escapeHandlers = none) :
    processEscape cfg (fuel + 1) c st sw = some (badEsc, st, sw) := by
  simp [processEscape, hc]

theorem C7_unknown_escape_witness :
    findHandler 'z' escapeHandlers = none ∧
      processEscape ⟨'%', .big, [['%', 'z']], false⟩ 1 'z' ⟨0⟩ ⟨[], []⟩ =
        some (badEsc, ⟨0⟩, ⟨[], []⟩) :=
  ⟨by decide,
    C7_unknown_escape ⟨'%', .big, [['%', 'z']], false⟩ 0 'z' ⟨0⟩ ⟨[], []⟩
      (by decide)⟩

/-- C5: for every stream state and configuration, when the dynamic escape
operation reads a next byte that decodes to the guard character `e`
(byte 0x65 = 101), it emits the literal `<RECESC>` and advances its cursor
by exactly 1 byte; the result is produced directly by the guard, with no
recursive dispatch through the registry. -/
theorem C5_recursive_guard (cfg : Config) (fuel : Nat)
    (st st1 : SerialStream) (sw sw1 : SerialWrapper) (byte : PyBytes)
    (hr : st.read sw = some (byte, st1, sw1))
    (hb : byteToInt cfg.byteorder byte = 101) :
    processEscape cfg (fuel + 1) 'e' st sw = some (recEsc, st1, sw1) ∧
      st1.ptr = st.ptr + 1 := by
  refine ⟨?_, read_ptr_succ hr⟩
  have hch : chrNat 101 = 'e' := by decide
  simp [processEscape, findHandler_e, runHandler, readThen, hr, hb, hch]

theorem C5_recursive_guard_witness :
    processEscape ⟨'e', .big, [], false⟩ 2 'e' ⟨0⟩ ⟨[[101]], []⟩ =
        some (recEsc, ⟨1⟩, ⟨[[101]], []⟩) ∧
      (⟨1⟩ : SerialStream).ptr = (⟨0⟩ : SerialStream).ptr + 1 :=
  C5_recursive_guard ⟨'e', .big, [], false⟩ 1 ⟨0⟩ ⟨1⟩ ⟨[[101]], []⟩
    ⟨[[101]], []⟩ [101] (by decide) (by decide)

/-- C6: for both configured byte orders, the two-byte decimal operation
applied to next input bytes 0x01, 0x02 consumes exactly 2 bytes and
produces the text `258`: the code composes `(first <<< 8) ||| second`,
ignoring the configured byte order (the configuration is universally
quantified here, so both orders are covered). -/
theorem C6_word_big_endian (cfg : Config) (fuel : Nat)
    (st st1 st2 : SerialStream) (sw sw1 sw2 : SerialWrapper)
    (h1 : st.read sw = some ([1], st1, sw1))
    (h2 : st1.read sw1 = some ([2], st2, sw2)) :
    processEscape cfg (fuel + 1) 'd' st sw =
        some (['2', '5', '8'], st2, sw2) ∧
      st2.ptr = st.ptr + 2 := by
  constructor
  · cases hbo : cfg.byteorder <;>
      simp [processEscape, findHandler, escapeHandlers, EH.char, runHandler,
        readThen, h1, h2, hbo, byteToInt, natStr] <;> decide
  · have e1 := read_ptr_succ h1
    have e2 := read_ptr_succ h2
    omega

theorem C6_word_big_endian_witness :
    (processEscape ⟨'%', .big, [], false⟩ 2 'd' ⟨0⟩ ⟨[[1], [2]], []⟩ =
        some (['2', '5', '8'], ⟨2⟩, ⟨[[1], [2]], []⟩) ∧
      (⟨2⟩ : SerialStream).ptr = (⟨0⟩ : SerialStream).ptr + 2) ∧
    (processEscape ⟨'%', .little, [], false⟩ 2 'd' ⟨0⟩ ⟨[[1], [2]], []⟩ =
        some (['2', '5', '8'], ⟨2⟩, ⟨[[1], [2]], []⟩) ∧
      (⟨2⟩ : SerialStream).ptr = (⟨0⟩ : SerialStream).ptr + 2) :=
  ⟨C6_word_big_endian ⟨'%', .big, [], false⟩ 1 ⟨0⟩ ⟨1⟩ ⟨2⟩ ⟨[[1], [2]], []⟩
      ⟨[[1], [2]], []⟩ ⟨[[1], [2]], []⟩ (by decide) (by decide),
    C6_word_big_endian ⟨'%', .little, [], false⟩ 1 ⟨0⟩ ⟨1⟩ ⟨2⟩ ⟨[[1], [2]], []⟩
      ⟨[[1], [2]], []⟩ ⟨[[1], [2]], []⟩ (by decide) (by decide)⟩

/-- C8: for every byte value 0-255 the hexadecimal rendering is exactly 2
characters and the binary rendering is exactly 8 characters, obtained by
padding the plain digit string with `0` characters on the left; byte 5
renders as hex `05` and binary `00000101`, and byte `0` as `00` and
`00000000`. -/
theorem C8_fixed_width :
    (∀ n : Nat, n < 256 →
      (intToBin n).length = 8 ∧ (intToHex n).length = 2 ∧
      (0 < n →
        intToBin n =
          List.replicate (8 - (Nat.toDigits 2 n).length) '0' ++
            Nat.toDigits 2 n ∧
        intToHex n =
          List.replicate (2 - (Nat.toDigits 16 n).length) '0' ++
            Nat.toDigits 16 n)) ∧
    intToBin 5 = ['0', '0', '0', '0', '0', '1', '0', '1'] ∧
    intToHex 5 = ['0', '5'] ∧
    intToBin 0 = List.replicate 8 '0' ∧
    intToHex 0 = ['0', '0'] := by
  refine ⟨by decide, by decide, by decide, by decide, by decide⟩

theorem C8_fixed_width_witness :
    (intToBin 5).length = 8 ∧ (intToHex 5).length = 2 :=
  ⟨(C8_fixed_width.1 5 (by decide)).1, (C8_fixed_width.1 5 (by decide)).2.1⟩

/-! ### Claim theorems: C3 (trailing escape) and C4 (source timeout) -/

/-- C3 counterexample: with escape character `b` and the template
consisting of the single character `b` (a trailing escape-character
occurrence with no following character), the code does not emit
`<BADESC>` and does not leave the cursor unchanged: it dispatches the
escape character itself and prints the next byte as binary, consuming one
byte.  This refutes the claim for arbitrary escape characters. -/
theorem C3_trailing_escape_cex :
    processTemplate ⟨'b', .big, [['b']], false⟩ 2 ['b'] ⟨0⟩ ⟨[], [[5]]⟩ =
        some (['0', '0', '0', '0', '0', '1', '0', '1'], ⟨1⟩, ⟨[[5]], []⟩) ∧
      (['0', '0', '0', '0', '0', '1', '0', '1'] : List Char) ≠ badEsc ∧
      (⟨1⟩ : SerialStream) ≠ (⟨0⟩ : SerialStream) := by
  refine ⟨by decide, by decide, by decide⟩

/-- C3 amended: a trailing escape-character occurrence is processed with
the escape character itself as the operation selector; whenever the
configured escape character matches no registered operation (as the
default `%` does not), the occurrence emits `<BADESC>`, consumes zero
bytes, and leaves the cursor and buffer state exactly as they were after
the preceding tokens. -/
theorem C3_trailing_escape_amended (cfg : Config) (fuel : Nat)
    (toks : List (List Char)) (st st' : SerialStream)
    (sw sw' : SerialWrapper) (out : List Char)
    (hesc : findHandler cfg.escape escapeHandlers = none)
    (h : processToks cfg (fuel + 1) toks st sw = some (out, st', sw')) :
    processToks cfg (fuel + 1) (toks ++ [[]]) st sw =
      some (out ++ badEsc, st', sw') := by
  induction toks generalizing st sw out with
  | nil =>
    simp only [processToks, Option.some.injEq, Prod.mk.injEq] at h
    obtain ⟨h1, h2, h3⟩ := h
    subst h1; subst h2; subst h3
    simp [processToks, processTok, processEscape, hesc]
  | cons t rest ih =>
    simp only [List.cons_append, processToks] at h ⊢
    cases hpt : processTok cfg (fuel + 1) t st sw with
    | none => simp [hpt] at h
    | some v =>
      obtain ⟨o, st1, sw1⟩ := v
      simp only [hpt] at h
      cases hrest : processToks cfg (fuel + 1) rest st1 sw1 with
      | none => simp [hrest] at h
      | some w =>
        obtain ⟨os, st2, sw2⟩ := w
        simp only [hrest, Option.some.injEq, Prod.mk.injEq] at h
        obtain ⟨h1, h2, h3⟩ := h
        subst h1; subst h2; subst h3
        simp [ih st1 sw1 os hrest, List.append_assoc]

theorem C3_trailing_escape_amended_witness :
    processToks ⟨'%', .big, [], false⟩ 1 [[]] ⟨0⟩ ⟨[], []⟩ =
      some (badEsc, ⟨0⟩, ⟨[], []⟩) := by
  have h := C3_trailing_escape_amended ⟨'%', .big, [], false⟩ 0 [] ⟨0⟩ ⟨0⟩
    ⟨[], []⟩ ⟨[], []⟩ [] (by decide) (by decide)
  simpa using h

/-- C4 (code-bug demonstration): a source read that times out yields the
empty bytes object, and `SerialWrapper.push` appends it to the buffer
unconditionally, so `peek` returns it as a buffer element after a single
pull, and the round decodes it (as integer 0 here) instead of pulling
again until a real byte arrives. -/
theorem C4_timeout_becomes_element :
    SerialWrapper.peek ⟨[], [[]]⟩ 0 = some ([], ⟨[[]], []⟩) ∧
      sessionRead ⟨'%', .big, [['%', 'i']], false⟩ 2 [⟨0⟩] ⟨[], [[]]⟩ =
        some (['0'], [⟨0⟩], ⟨[], []⟩) := by
  refine ⟨by decide, by decide⟩

end SerialMonitor
